import Mathlib

/-!
# Soletta network link addresses (`sol-network.h`)

A shallow embedding of the value-level part of `src/lib/comms/include/sol-network.h`:
the `sol_network_family` and `sol_network_link_flags` enumerations, the
`sol_network_link_addr` structure with its 16-byte address union, and the inline
comparison `sol_network_link_addr_eq` together with the `memcmp` it calls.
-/

namespace Soletta

/-! ## Data model -/

/-- The C type `uint8_t`. -/
abbrev uint8_t := Fin 256

/-- The C type `uint16_t`. -/
abbrev uint16_t := Fin 65536

/-- `enum sol_network_family`, first enumerator (value 0). An enum object can hold any
value of its underlying integer type, so the family field is an integer. -/
def SOL_NETWORK_FAMILY_UNSPEC : Int := 0

/-- `enum sol_network_family`, second enumerator (value 1): IPv4. -/
def SOL_NETWORK_FAMILY_INET : Int := 1

/-- `enum sol_network_family`, third enumerator (value 2): IPv6. -/
def SOL_NETWORK_FAMILY_INET6 : Int := 2

/-- `struct sol_network_link_addr`. The field `addr` is the storage of the union
`{ uint8_t in[4]; uint8_t in6[16]; }`: sixteen bytes, both members starting at offset 0. -/
structure sol_network_link_addr where
  family : Int
  addr : Fin 16 → uint8_t
  port : uint16_t

/-- `sizeof(a->addr.in)`. -/
def sizeof_in : Nat := 4

/-- `sizeof(a->addr.in6)`. -/
def sizeof_in6 : Nat := 16

/-- The union member `addr.in`: the first four bytes of the storage. -/
def sol_network_link_addr.addr_in (a : sol_network_link_addr) : Fin sizeof_in → uint8_t :=
  fun i => a.addr (Fin.castLE (by decide) i)

/-- The union member `addr.in6`: all sixteen bytes of the storage. -/
def sol_network_link_addr.addr_in6 (a : sol_network_link_addr) : Fin sizeof_in6 → uint8_t :=
  a.addr

/-- The address `a` with its port field replaced. -/
def sol_network_link_addr.set_port (a : sol_network_link_addr) (p : uint16_t) :
    sol_network_link_addr :=
  ⟨a.family, a.addr, p⟩

/-- The address `a` with its union storage replaced. -/
def sol_network_link_addr.set_addr (a : sol_network_link_addr) (s : Fin 16 → uint8_t) :
    sol_network_link_addr :=
  ⟨a.family, s, a.port⟩

/-! ## Operations -/

/-- The C library `memcmp(s1, s2, n)` on two `n`-byte objects: zero when all bytes agree,
otherwise the difference of the first pair of bytes that differ (as `unsigned char`). -/
def memcmp : (n : Nat) → (Fin n → uint8_t) → (Fin n → uint8_t) → Int
  | 0, _, _ => 0
  | n + 1, s1, s2 =>
    if s1 0 ≠ s2 0 then ((s1 0).val : Int) - ((s2 0).val : Int)
    else memcmp n (Fin.tail s1) (Fin.tail s2)

/-- `sol_network_link_addr_eq(a, b)`: the locals `addr_a`, `addr_b` and `bytes` of the C
body are passed straight to the `memcmp` of the branch that sets them; `!x` is `x == 0`. -/
def sol_network_link_addr_eq (a b : sol_network_link_addr) : Bool :=
  if a.family ≠ b.family then
    false
  else if a.family = SOL_NETWORK_FAMILY_INET then
    memcmp sizeof_in a.addr_in b.addr_in == 0
  else if a.family = SOL_NETWORK_FAMILY_INET6 then
    memcmp sizeof_in6 a.addr_in6 b.addr_in6 == 0
  else
    false

/-- `enum sol_network_link_flags`: the five enumerators. -/
inductive sol_network_link_flags where
  | SOL_NETWORK_LINK_UP
  | SOL_NETWORK_LINK_BROADCAST
  | SOL_NETWORK_LINK_LOOPBACK
  | SOL_NETWORK_LINK_MULTICAST
  | SOL_NETWORK_LINK_RUNNING
  deriving DecidableEq

/-- The integer value the header gives to each enumerator of `sol_network_link_flags`. -/
def sol_network_link_flags.value : sol_network_link_flags → Nat
  | .SOL_NETWORK_LINK_UP => 1 <<< 0
  | .SOL_NETWORK_LINK_BROADCAST => 1 <<< 1
  | .SOL_NETWORK_LINK_LOOPBACK => 1 <<< 2
  | .SOL_NETWORK_LINK_MULTICAST => 1 <<< 3
  | .SOL_NETWORK_LINK_RUNNING => 1 <<< 4

/-- The enumerators in declaration order. -/
def all_link_flags : List sol_network_link_flags :=
  [.SOL_NETWORK_LINK_UP, .SOL_NETWORK_LINK_BROADCAST, .SOL_NETWORK_LINK_LOOPBACK,
   .SOL_NETWORK_LINK_MULTICAST, .SOL_NETWORK_LINK_RUNNING]

/-- The bitwise OR of the values of a list of flags. -/
def flags_or_list (l : List sol_network_link_flags) : Nat :=
  l.foldl (fun m f => m ||| f.value) 0

/-- The bitwise OR of the flags of a set `S`: the value stored in the `flags` field of a
`sol_network_link` whose status is exactly `S`. -/
def flags_or (S : Finset sol_network_link_flags) : Nat :=
  flags_or_list (all_link_flags.filter (fun f => f ∈ S))

/-! ## Textual form of an address -/

/-- The character of a digit value below 16, hexadecimal digits in lower case. -/
def digit_char (d : Nat) : Char :=
  match d with
  | 0 => '0' | 1 => '1' | 2 => '2' | 3 => '3' | 4 => '4' | 5 => '5' | 6 => '6' | 7 => '7'
  | 8 => '8' | 9 => '9' | 10 => 'a' | 11 => 'b' | 12 => 'c' | 13 => 'd' | 14 => 'e'
  | _ => 'f'

/-- The value of a decimal digit character. -/
def dec_value (c : Char) : Option Nat :=
  if 48 ≤ c.toNat ∧ c.toNat ≤ 57 then some (c.toNat - 48) else none

/-- The value of a hexadecimal digit character, either case. -/
def hex_value (c : Char) : Option Nat :=
  if 48 ≤ c.toNat ∧ c.toNat ≤ 57 then some (c.toNat - 48)
  else if 97 ≤ c.toNat ∧ c.toNat ≤ 102 then some (c.toNat - 87)
  else if 65 ≤ c.toNat ∧ c.toNat ≤ 70 then some (c.toNat - 55)
  else none

/-- A byte in decimal, without leading zeros. -/
def format_octet (b : Nat) : List Char :=
  if b < 10 then [digit_char b]
  else if b < 100 then [digit_char (b / 10), digit_char (b % 10)]
  else [digit_char (b / 100), digit_char (b / 10 % 10), digit_char (b % 10)]

/-- A 16-bit group in hexadecimal, without leading zeros. -/
def format_group (w : Nat) : List Char :=
  if w < 16 then [digit_char w]
  else if w < 256 then [digit_char (w / 16), digit_char (w % 16)]
  else if w < 4096 then [digit_char (w / 256), digit_char (w / 16 % 16), digit_char (w % 16)]
  else [digit_char (w / 4096), digit_char (w / 256 % 16), digit_char (w / 16 % 16),
        digit_char (w % 16)]

/-- The fields joined with the separator between neighbours. -/
def join_with (sep : Char) : List (List Char) → List Char
  | [] => []
  | f :: fs =>
    match fs with
    | [] => f
    | _ :: _ => f ++ sep :: join_with sep fs

/-- The fields of a text between occurrences of the separator. -/
def split_on (sep : Char) : List Char → List (List Char)
  | [] => [[]]
  | c :: cs =>
    if c = sep then [] :: split_on sep cs
    else
      match split_on sep cs with
      | [] => [[c]]
      | f :: fs => (c :: f) :: fs

/-- The number written by a digit string in the given base, continuing from `acc`. -/
def parse_digits (value : Char → Option Nat) (base : Nat) (acc : Nat) : List Char → Option Nat
  | [] => some acc
  | c :: cs =>
    match value c with
    | none => none
    | some d => parse_digits value base (acc * base + d) cs

/-- One field of a dotted quad: one to three decimal digits, at most 255. -/
def parse_octet (s : List Char) : Option Nat :=
  if s = [] ∨ 3 < s.length then none
  else
    match parse_digits dec_value 10 0 s with
    | none => none
    | some n => if n ≤ 255 then some n else none

/-- One group of an IPv6 text: one to four hexadecimal digits. -/
def parse_group (s : List Char) : Option Nat :=
  if s = [] ∨ 4 < s.length then none
  else parse_digits hex_value 16 0 s

/-- Applies a field reader to every field; fails when one field fails. -/
def parse_all (p : List Char → Option Nat) : List (List Char) → Option (List Nat)
  | [] => some []
  | f :: fs =>
    match p f with
    | none => none
    | some n =>
      match parse_all p fs with
      | none => none
      | some ns => some (n :: ns)

/-- The dotted-quad text of four bytes. -/
def format_inet (a : Fin 4 → uint8_t) : List Char :=
  join_with '.' ((List.ofFn a).map (fun b => format_octet b.val))

/-- Reads a dotted quad: exactly four decimal fields separated by dots. -/
def parse_inet (s : List Char) : Option (List Nat) :=
  match parse_all parse_octet (split_on '.' s) with
  | none => none
  | some l => if l.length = 4 then some l else none

/-- The eight 16-bit groups of the sixteen bytes, each in network byte order. -/
def addr_groups (a : Fin 16 → uint8_t) : List Nat :=
  List.ofFn (fun k : Fin 8 =>
    (a ⟨2 * k.val, by omega⟩).val * 256 + (a ⟨2 * k.val + 1, by omega⟩).val)

/-- The length of the run of zero groups at the head of the list. -/
def zero_run : List Nat → Nat
  | [] => 0
  | w :: ws => if w = 0 then zero_run ws + 1 else 0

/-- Start and length of the longest run of zero groups, the leftmost among the longest. -/
def best_zero_run : List Nat → Nat × Nat
  | [] => (0, 0)
  | w :: ws =>
    if (best_zero_run ws).2 ≤ zero_run (w :: ws) then (0, zero_run (w :: ws))
    else ((best_zero_run ws).1 + 1, (best_zero_run ws).2)

/-- The colon-hexadecimal text of eight groups: groups without leading zeros, and the
longest run of two or more zero groups written as `::`. -/
def format_inet6_groups (ws : List Nat) : List Char :=
  if (best_zero_run ws).2 < 2 then join_with ':' (ws.map format_group)
  else
    join_with ':' ((ws.take (best_zero_run ws).1).map format_group) ++ ':' :: ':' ::
      join_with ':' ((ws.drop ((best_zero_run ws).1 + (best_zero_run ws).2)).map format_group)

/-- The colon-hexadecimal text of sixteen bytes. -/
def format_inet6 (a : Fin 16 → uint8_t) : List Char :=
  format_inet6_groups (addr_groups a)

/-- Splits a text at its first `::`, when it has one. -/
def split_double_colon : List Char → Option (List Char × List Char)
  | [] => none
  | c :: cs =>
    match cs with
    | [] => none
    | d :: rest =>
      if c = ':' ∧ d = ':' then some ([], rest)
      else
        match split_double_colon cs with
        | none => none
        | some p => some (c :: p.1, p.2)

/-- Reads a possibly empty colon-separated sequence of groups. -/
def parse_groups (s : List Char) : Option (List Nat) :=
  if s = [] then some [] else parse_all parse_group (split_on ':' s)

/-- Reads an IPv6 text: eight groups, or fewer groups around one `::` that stands for
the missing zero groups. -/
def parse_inet6 (s : List Char) : Option (List Nat) :=
  match split_double_colon s with
  | none =>
    match parse_all parse_group (split_on ':' s) with
    | none => none
    | some ws => if ws.length = 8 then some ws else none
  | some p =>
    match parse_groups p.1, parse_groups p.2 with
    | some gl, some gr =>
      if gl.length + gr.length ≤ 7 then
        some (gl ++ List.replicate (8 - (gl.length + gr.length)) 0 ++ gr)
      else none
    | _, _ => none

/-- Writes four parsed bytes into `addr.in`; bytes 4..15 of the union keep their value. -/
def store_in (old : Fin 16 → uint8_t) (l : List Nat) : Fin 16 → uint8_t :=
  fun i => if i.val < 4 then Fin.ofNat (l.getD i.val 0) else old i

/-- Writes eight parsed groups into `addr.in6`, each in network byte order. -/
def store_in6 (ws : List Nat) : Fin 16 → uint8_t :=
  fun i =>
    if i.val % 2 = 0 then Fin.ofNat (ws.getD (i.val / 2) 0 / 256)
    else Fin.ofNat (ws.getD (i.val / 2) 0 % 256)

/-- Modelled from the spec: the body of `sol_network_link_addr_to_str`, which the header
only declares. Following §4.1 `format`, the text is the dotted quad of `addr.in` for
IPv4 and the colon-hexadecimal form of `addr.in6` for IPv6 and is appended to the
caller's buffer; there is no result for any other family. The result is the text and
the buffer after the call. -/
def sol_network_link_addr_to_str (addr : sol_network_link_addr) (buf : List Char) :
    Option (List Char × List Char) :=
  if addr.family = SOL_NETWORK_FAMILY_INET then
    some (format_inet addr.addr_in, buf ++ format_inet addr.addr_in)
  else if addr.family = SOL_NETWORK_FAMILY_INET6 then
    some (format_inet6 addr.addr_in6, buf ++ format_inet6 addr.addr_in6)
  else none

/-- Modelled from the spec: the body of `sol_network_link_addr_from_str`, which the header
only declares. Following §4.1 `parse`, the family already set in the output address
selects the form that is read; the address bytes of that family are written and the
family and port fields are left as they are; malformed text, text of the other family
and any other family value give no result. -/
def sol_network_link_addr_from_str (addr : sol_network_link_addr) (buf : List Char) :
    Option sol_network_link_addr :=
  if addr.family = SOL_NETWORK_FAMILY_INET then
    match parse_inet buf with
    | none => none
    | some l => some ⟨addr.family, store_in addr.addr l, addr.port⟩
  else if addr.family = SOL_NETWORK_FAMILY_INET6 then
    match parse_inet6 buf with
    | none => none
    | some ws => some ⟨addr.family, store_in6 ws, addr.port⟩
  else none

/-! ## Basic facts -/

theorem memcmp_eq_zero_iff (n : Nat) (s1 s2 : Fin n → uint8_t) :
    memcmp n s1 s2 = 0 ↔ ∀ i, s1 i = s2 i := by
  induction n with
  | zero =>
    simp only [memcmp, true_iff]
    intro i
    exact i.elim0
  | succ n ih =>
    rw [memcmp, Fin.forall_fin_succ]
    by_cases h : s1 0 = s2 0
    · simp only [h, ne_eq, not_true_eq_false, if_false, true_and]
      rw [ih]
      rfl
    · simp only [h, ne_eq, not_false_eq_true, if_true, false_and, iff_false]
      intro hz
      apply h
      apply Fin.ext
      omega

theorem eq_inet_iff (a b : sol_network_link_addr)
    (hf : a.family = b.family) (ha : a.family = SOL_NETWORK_FAMILY_INET) :
    sol_network_link_addr_eq a b = true ↔ ∀ i : Fin sizeof_in, a.addr_in i = b.addr_in i := by
  unfold sol_network_link_addr_eq
  simp only [hf, ne_eq, not_true_eq_false, if_false]
  rw [if_pos (hf ▸ ha), beq_iff_eq, memcmp_eq_zero_iff]

theorem eq_inet6_iff (a b : sol_network_link_addr)
    (hf : a.family = b.family) (ha : a.family = SOL_NETWORK_FAMILY_INET6) :
    sol_network_link_addr_eq a b = true ↔ ∀ i : Fin sizeof_in6, a.addr_in6 i = b.addr_in6 i := by
  unfold sol_network_link_addr_eq
  have h1 : b.family ≠ SOL_NETWORK_FAMILY_INET := by
    rw [← hf, ha]; decide
  simp only [hf, ne_eq, not_true_eq_false, if_false]
  rw [if_neg h1, if_pos (hf ▸ ha), beq_iff_eq, memcmp_eq_zero_iff]

theorem eq_false_of_family_ne (a b : sol_network_link_addr) (hf : a.family ≠ b.family) :
    sol_network_link_addr_eq a b = false := by
  unfold sol_network_link_addr_eq
  rw [if_pos hf]

theorem eq_false_of_other_family (a b : sol_network_link_addr)
    (h4 : a.family ≠ SOL_NETWORK_FAMILY_INET) (h6 : a.family ≠ SOL_NETWORK_FAMILY_INET6) :
    sol_network_link_addr_eq a b = false := by
  unfold sol_network_link_addr_eq
  rw [if_neg h4, if_neg h6]
  simp

/-- The characterisation of the comparison used by all later results. -/
theorem eq_true_iff (a b : sol_network_link_addr) :
    sol_network_link_addr_eq a b = true ↔
      a.family = b.family ∧
      ((a.family = SOL_NETWORK_FAMILY_INET ∧ ∀ i : Fin sizeof_in, a.addr_in i = b.addr_in i) ∨
       (a.family = SOL_NETWORK_FAMILY_INET6 ∧
          ∀ i : Fin sizeof_in6, a.addr_in6 i = b.addr_in6 i)) := by
  by_cases hf : a.family = b.family
  · by_cases h4 : a.family = SOL_NETWORK_FAMILY_INET
    · rw [eq_inet_iff a b hf h4]
      constructor
      · intro h
        exact ⟨hf, Or.inl ⟨h4, h⟩⟩
      · rintro ⟨_, ⟨_, h⟩ | ⟨h6, _⟩⟩
        · exact h
        · rw [h4] at h6
          exact absurd h6 (by decide)
    · by_cases h6 : a.family = SOL_NETWORK_FAMILY_INET6
      · rw [eq_inet6_iff a b hf h6]
        constructor
        · intro h
          exact ⟨hf, Or.inr ⟨h6, h⟩⟩
        · rintro ⟨_, ⟨h4', _⟩ | ⟨_, h⟩⟩
          · exact absurd h4' h4
          · exact h
      · rw [eq_false_of_other_family a b h4 h6]
        constructor
        · intro h
          exact absurd h (by decide)
        · rintro ⟨_, ⟨h4', _⟩ | ⟨h6', _⟩⟩
          · exact absurd h4' h4
          · exact absurd h6' h6
  · rw [eq_false_of_family_ne a b hf]
    constructor
    · intro h
      exact absurd h (by decide)
    · rintro ⟨hf', _⟩
      exact absurd hf' hf

/-! ## Link flags -/

theorem value_and_value (f g : sol_network_link_flags) :
    g.value &&& f.value ≠ 0 ↔ g = f := by
  cases f <;> cases g <;> decide

theorem or_and_ne_zero (m x v : Nat) :
    (m ||| x) &&& v ≠ 0 ↔ (m &&& v ≠ 0 ∨ x &&& v ≠ 0) := by
  have key : (m ||| x) &&& v = 0 ↔ (m &&& v = 0 ∧ x &&& v = 0) := by
    constructor
    · intro h
      have hb : ∀ i, ((m.testBit i || x.testBit i) && v.testBit i) = false := by
        intro i
        have := congrArg (fun n => Nat.testBit n i) h
        simpa only [Nat.testBit_and, Nat.testBit_or, Nat.zero_testBit] using this
      constructor
      · apply Nat.eq_of_testBit_eq
        intro i
        have := hb i
        rw [Nat.testBit_and, Nat.zero_testBit]
        revert this
        cases m.testBit i <;> cases x.testBit i <;> cases v.testBit i <;> simp
      · apply Nat.eq_of_testBit_eq
        intro i
        have := hb i
        rw [Nat.testBit_and, Nat.zero_testBit]
        revert this
        cases m.testBit i <;> cases x.testBit i <;> cases v.testBit i <;> simp
    · rintro ⟨h1, h2⟩
      apply Nat.eq_of_testBit_eq
      intro i
      have e1 := congrArg (fun n => Nat.testBit n i) h1
      have e2 := congrArg (fun n => Nat.testBit n i) h2
      simp only [Nat.testBit_and, Nat.zero_testBit] at e1 e2
      rw [Nat.testBit_and, Nat.testBit_or, Nat.zero_testBit]
      revert e1 e2
      cases m.testBit i <;> cases x.testBit i <;> cases v.testBit i <;> simp
  rw [Ne, key]
  tauto

theorem foldl_or_and (l : List sol_network_link_flags) (m v : Nat) :
    (l.foldl (fun m f => m ||| f.value) m) &&& v ≠ 0 ↔
      (m &&& v ≠ 0 ∨ ∃ g ∈ l, g.value &&& v ≠ 0) := by
  induction l generalizing m with
  | nil => simp
  | cons x xs ih =>
    rw [List.foldl_cons, ih]
    have hd : (m ||| x.value) &&& v ≠ 0 ↔ (m &&& v ≠ 0 ∨ x.value &&& v ≠ 0) :=
      or_and_ne_zero m x.value v
    rw [hd]
    simp only [List.mem_cons, exists_eq_or_imp]
    tauto

theorem flags_or_and_iff (S : Finset sol_network_link_flags) (f : sol_network_link_flags) :
    flags_or S &&& f.value ≠ 0 ↔ f ∈ S := by
  unfold flags_or flags_or_list
  rw [foldl_or_and]
  constructor
  · rintro (h | ⟨g, hg, hv⟩)
    · exact absurd (Nat.zero_and _) h
    · rw [value_and_value] at hv
      rw [List.mem_filter] at hg
      rw [← hv]
      simpa using hg.2
  · intro h
    refine Or.inr ⟨f, ?_, (value_and_value f f).2 rfl⟩
    rw [List.mem_filter]
    refine ⟨?_, by simpa using h⟩
    cases f <;> decide

/-! ## Digits and number fields -/

theorem dec_value_digit_char (d : Nat) (h : d < 10) : dec_value (digit_char d) = some d := by
  interval_cases d <;> rfl

theorem hex_value_digit_char (d : Nat) (h : d < 16) : hex_value (digit_char d) = some d := by
  interval_cases d <;> rfl

theorem digit_char_ne_colon (d : Nat) (h : d < 16) : digit_char d ≠ ':' := by
  interval_cases d <;> decide

theorem digit_char_ne_dot (d : Nat) (h : d < 16) : digit_char d ≠ '.' := by
  interval_cases d <;> decide

theorem parse_octet_format_octet (b : Nat) (h : b < 256) :
    parse_octet (format_octet b) = some b := by
  unfold format_octet
  split
  · rename_i h1
    simp [parse_octet, parse_digits, dec_value_digit_char b h1]
    omega
  · split
    · rename_i h1 h2
      have e1 := dec_value_digit_char (b / 10) (by omega)
      have e2 := dec_value_digit_char (b % 10) (by omega)
      simp [parse_octet, parse_digits, e1, e2]
      omega
    · rename_i h1 h2
      have e1 := dec_value_digit_char (b / 100) (by omega)
      have e2 := dec_value_digit_char (b / 10 % 10) (by omega)
      have e3 := dec_value_digit_char (b % 10) (by omega)
      simp [parse_octet, parse_digits, e1, e2, e3]
      omega

theorem format_octet_no_dot (b : Nat) (h : b < 256) : '.' ∉ format_octet b := by
  have n1 := digit_char_ne_dot b
  have n2 := digit_char_ne_dot (b / 10)
  have n3 := digit_char_ne_dot (b % 10) (by omega)
  have n4 := digit_char_ne_dot (b / 100) (by omega)
  have n5 := digit_char_ne_dot (b / 10 % 10) (by omega)
  unfold format_octet
  split
  · rename_i h1
    simpa using (n1 (by omega)).symm
  · split
    · simp only [List.mem_cons, List.mem_nil_iff, or_false, not_or]
      exact ⟨(n2 (by omega)).symm, n3.symm⟩
    · simp only [List.mem_cons, List.mem_nil_iff, or_false, not_or]
      exact ⟨n4.symm, n5.symm, n3.symm⟩

theorem parse_group_format_group (w : Nat) (h : w < 65536) :
    parse_group (format_group w) = some w := by
  unfold format_group
  split
  · rename_i h1
    simp [parse_group, parse_digits, hex_value_digit_char w h1]
  · split
    · have e1 := hex_value_digit_char (w / 16) (by omega)
      have e2 := hex_value_digit_char (w % 16) (by omega)
      simp [parse_group, parse_digits, e1, e2]
      omega
    · split
      · have e1 := hex_value_digit_char (w / 256) (by omega)
        have e2 := hex_value_digit_char (w / 16 % 16) (by omega)
        have e3 := hex_value_digit_char (w % 16) (by omega)
        simp [parse_group, parse_digits, e1, e2, e3]
        omega
      · have e1 := hex_value_digit_char (w / 4096) (by omega)
        have e2 := hex_value_digit_char (w / 256 % 16) (by omega)
        have e3 := hex_value_digit_char (w / 16 % 16) (by omega)
        have e4 := hex_value_digit_char (w % 16) (by omega)
        simp [parse_group, parse_digits, e1, e2, e3, e4]
        omega

theorem format_group_no_colon (w : Nat) (h : w < 65536) : ':' ∉ format_group w := by
  have n1 := digit_char_ne_colon w
  have n2 := digit_char_ne_colon (w / 16) 
  have n3 := digit_char_ne_colon (w % 16) (by omega)
  have n4 := digit_char_ne_colon (w / 256) 
  have n5 := digit_char_ne_colon (w / 16 % 16) (by omega)
  have n6 := digit_char_ne_colon (w / 4096) (by omega)
  have n7 := digit_char_ne_colon (w / 256 % 16) (by omega)
  unfold format_group
  split
  · rename_i h1
    simpa using (n1 h1).symm
  · split
    · simp only [List.mem_cons, List.mem_nil_iff, or_false, not_or]
      exact ⟨(n2 (by omega)).symm, n3.symm⟩
    · split
      · simp only [List.mem_cons, List.mem_nil_iff, or_false, not_or]
        exact ⟨(n4 (by omega)).symm, n5.symm, n3.symm⟩
      · simp only [List.mem_cons, List.mem_nil_iff, or_false, not_or]
        exact ⟨n6.symm, n7.symm, n5.symm, n3.symm⟩

theorem format_group_ne_nil (w : Nat) : format_group w ≠ [] := by
  unfold format_group
  split
  · simp
  · split
    · simp
    · split <;> simp

theorem format_octet_ne_nil (b : Nat) : format_octet b ≠ [] := by
  unfold format_octet
  split
  · simp
  · split <;> simp

/-! ## Fields and separators -/

theorem split_on_clean (sep : Char) (f : List Char) (h : sep ∉ f) : split_on sep f = [f] := by
  induction f with
  | nil => rfl
  | cons c cs ih =>
    rw [List.mem_cons, not_or] at h
    rw [split_on, if_neg (Ne.symm h.1), ih h.2]

theorem split_on_append (sep : Char) (f rest : List Char) (h : sep ∉ f) :
    split_on sep (f ++ sep :: rest) = f :: split_on sep rest := by
  induction f with
  | nil => rw [List.nil_append, split_on, if_pos rfl]
  | cons c cs ih =>
    rw [List.mem_cons, not_or] at h
    rw [List.cons_append, split_on, if_neg (Ne.symm h.1), ih h.2]

theorem split_on_join (sep : Char) (fs : List (List Char)) (hne : fs ≠ [])
    (h : ∀ f ∈ fs, sep ∉ f) : split_on sep (join_with sep fs) = fs := by
  induction fs with
  | nil => exact absurd rfl hne
  | cons f rest ih =>
    cases rest with
    | nil =>
      rw [join_with]
      exact split_on_clean sep f (h f (List.mem_cons_self _ _))
    | cons g gs =>
      rw [join_with, split_on_append sep f _ (h f (List.mem_cons_self _ _))]
      rw [ih (List.cons_ne_nil _ _) (fun x hx => h x (List.mem_cons_of_mem _ hx))]

theorem join_with_ne_nil (sep : Char) (fs : List (List Char)) (hne : fs ≠ [])
    (h : ∀ f ∈ fs, f ≠ []) : join_with sep fs ≠ [] := by
  cases fs with
  | nil => exact absurd rfl hne
  | cons f rest =>
    cases rest with
    | nil =>
      rw [join_with]
      exact h f (List.mem_cons_self _ _)
    | cons g gs =>
      rw [join_with]
      intro hc
      exact h f (List.mem_cons_self _ _) (List.append_eq_nil.1 hc).1

theorem parse_all_map (p : List Char → Option Nat) (fmt : Nat → List Char) (ws : List Nat)
    (h : ∀ w ∈ ws, p (fmt w) = some w) : parse_all p (ws.map fmt) = some ws := by
  induction ws with
  | nil => rfl
  | cons w rest ih =>
    rw [List.map_cons, parse_all, h w (List.mem_cons_self _ _),
      ih (fun x hx => h x (List.mem_cons_of_mem _ hx))]

/-! ## The double colon -/

theorem split_double_colon_step (c d : Char) (rest : List Char) (h : ¬ (c = ':' ∧ d = ':')) :
    split_double_colon (c :: d :: rest) =
      (split_double_colon (d :: rest)).map (fun p => (c :: p.1, p.2)) := by
  rw [split_double_colon, if_neg h]
  cases split_double_colon (d :: rest) <;> rfl

theorem split_double_colon_clean (g : List Char) (h : ':' ∉ g) :
    split_double_colon g = none := by
  induction g with
  | nil => rfl
  | cons c cs ih =>
    rw [List.mem_cons, not_or] at h
    cases cs with
    | nil => rfl
    | cons d rest =>
      rw [split_double_colon_step c d rest (fun hc => h.1 hc.1.symm), ih h.2]
      rfl

theorem split_double_colon_at (g rest : List Char) (h : ':' ∉ g) :
    split_double_colon (g ++ ':' :: ':' :: rest) = some (g, rest) := by
  induction g with
  | nil =>
    rw [List.nil_append, split_double_colon, if_pos ⟨rfl, rfl⟩]
  | cons c cs ih =>
    rw [List.mem_cons, not_or] at h
    have hstep : ∀ t : List Char, t ≠ [] →
        split_double_colon (c :: t) =
          (split_double_colon t).map (fun p => (c :: p.1, p.2)) := by
      intro t ht
      cases t with
      | nil => exact absurd rfl ht
      | cons d r => exact split_double_colon_step c d r (fun hc => h.1 hc.1.symm)
    rw [List.cons_append, hstep _ (by simp), ih h.2]
    rfl

theorem split_double_colon_skip (g t : List Char) (h : ':' ∉ g) (ht : t.head? ≠ some ':') :
    split_double_colon (g ++ ':' :: t) =
      (split_double_colon t).map (fun p => (g ++ ':' :: p.1, p.2)) := by
  induction g with
  | nil =>
    cases t with
    | nil => rfl
    | cons d r =>
      have hd : d ≠ ':' := fun hc => ht (by rw [hc]; rfl)
      rw [List.nil_append, split_double_colon_step ':' d r (fun hc => hd hc.2)]
      rfl
  | cons c cs ih =>
    rw [List.mem_cons, not_or] at h
    have hstep : ∀ u : List Char, u ≠ [] →
        split_double_colon (c :: u) =
          (split_double_colon u).map (fun p => (c :: p.1, p.2)) := by
      intro u hu
      cases u with
      | nil => exact absurd rfl hu
      | cons d r => exact split_double_colon_step c d r (fun hc => h.1 hc.1.symm)
    rw [List.cons_append, hstep _ (by simp), ih h.2]
    cases split_double_colon t <;> rfl

theorem join_with_head (gs : List (List Char)) (g : List Char) (rest : List Char)
    (h : g ≠ [] ∧ ':' ∉ g) : (join_with ':' (g :: gs) ++ rest).head? ≠ some ':' := by
  obtain ⟨hne, hc⟩ := h
  cases g with
  | nil => exact absurd rfl hne
  | cons c cs =>
    rw [List.mem_cons, not_or] at hc
    have hd : ∀ u : List Char, ((c :: cs) ++ u).head? ≠ some ':' := by
      intro u hu
      rw [List.cons_append, List.head?_cons] at hu
      exact hc.1 (Option.some.inj hu).symm
    cases gs with
    | nil =>
      rw [join_with]
      exact hd rest
    | cons g2 gs2 =>
      rw [join_with, List.append_assoc]
      exact hd _

theorem split_double_colon_join (gs : List (List Char)) (h : ∀ g ∈ gs, g ≠ [] ∧ ':' ∉ g) :
    split_double_colon (join_with ':' gs) = none := by
  induction gs with
  | nil => rfl
  | cons g rest ih =>
    cases rest with
    | nil =>
      rw [join_with]
      exact split_double_colon_clean g (h g (List.mem_cons_self _ _)).2
    | cons g2 gs2 =>
      have hrest : ∀ x ∈ g2 :: gs2, x ≠ [] ∧ ':' ∉ x := fun x hx =>
        h x (List.mem_cons_of_mem _ hx)
      have hhead := join_with_head gs2 g2 [] (hrest g2 (List.mem_cons_self _ _))
      rw [List.append_nil] at hhead
      rw [join_with, split_double_colon_skip g _ (h g (List.mem_cons_self _ _)).2 hhead,
        ih hrest]
      rfl

theorem split_double_colon_join_at (gs : List (List Char)) (rest : List Char)
    (h : ∀ g ∈ gs, g ≠ [] ∧ ':' ∉ g) :
    split_double_colon (join_with ':' gs ++ ':' :: ':' :: rest) =
      some (join_with ':' gs, rest) := by
  induction gs with
  | nil =>
    rw [join_with, List.nil_append, split_double_colon, if_pos ⟨rfl, rfl⟩]
  | cons g tl ih =>
    cases tl with
    | nil =>
      rw [join_with]
      exact split_double_colon_at g rest (h g (List.mem_cons_self _ _)).2
    | cons g2 gs2 =>
      have htl : ∀ x ∈ g2 :: gs2, x ≠ [] ∧ ':' ∉ x := fun x hx =>
        h x (List.mem_cons_of_mem _ hx)
      have hhead := join_with_head gs2 g2 (':' :: ':' :: rest)
        (htl g2 (List.mem_cons_self _ _))
      rw [join_with, List.append_assoc, List.cons_append,
        split_double_colon_skip g _ (h g (List.mem_cons_self _ _)).2 hhead, ih htl]
      rfl

/-! ## Runs of zero groups -/

theorem zero_run_spec (ws : List Nat) :
    ws = List.replicate (zero_run ws) 0 ++ ws.drop (zero_run ws) := by
  induction ws with
  | nil => rfl
  | cons w rest ih =>
    rw [zero_run]
    split
    · rename_i hw
      rw [List.replicate_succ, List.drop_succ_cons, List.cons_append, ← ih, hw]
    · rfl

theorem zero_run_le (ws : List Nat) : zero_run ws ≤ ws.length := by
  induction ws with
  | nil => exact Nat.le_refl _
  | cons w rest ih =>
    rw [zero_run]
    split
    · rw [List.length_cons]
      omega
    · exact Nat.zero_le _

theorem best_zero_run_spec (ws : List Nat) :
    ws = ws.take (best_zero_run ws).1 ++ List.replicate (best_zero_run ws).2 0 ++
      ws.drop ((best_zero_run ws).1 + (best_zero_run ws).2) := by
  induction ws with
  | nil => rfl
  | cons w rest ih =>
    rw [best_zero_run]
    split
    · rw [List.take_zero, List.nil_append, Nat.zero_add]
      exact zero_run_spec (w :: rest)
    · have e : (best_zero_run rest).1 + 1 + (best_zero_run rest).2 =
          (best_zero_run rest).1 + (best_zero_run rest).2 + 1 := by omega
      simp only [e, List.take_succ_cons, List.drop_succ_cons, List.cons_append]
      rw [← ih]

theorem best_zero_run_le (ws : List Nat) :
    (best_zero_run ws).1 + (best_zero_run ws).2 ≤ ws.length := by
  induction ws with
  | nil => exact Nat.le_refl _
  | cons w rest ih =>
    rw [best_zero_run]
    split
    · rw [Nat.zero_add]
      exact zero_run_le (w :: rest)
    · rw [List.length_cons]
      simp only
      omega

/-! ## Reading back a written text -/

theorem parse_groups_join (ws : List Nat) (h : ∀ w ∈ ws, w < 65536) :
    parse_groups (join_with ':' (ws.map format_group)) = some ws := by
  have hall : parse_all parse_group (ws.map format_group) = some ws :=
    parse_all_map parse_group format_group ws (fun w hw => parse_group_format_group w (h w hw))
  cases ws with
  | nil => rfl
  | cons w rest =>
    have hne : join_with ':' ((w :: rest).map format_group) ≠ [] := by
      apply join_with_ne_nil
      · simp
      · intro f hf
        obtain ⟨x, _, rfl⟩ := List.mem_map.1 hf
        exact format_group_ne_nil x
    rw [parse_groups, if_neg hne, split_on_join, hall]
    · simp
    · intro f hf
      obtain ⟨x, hx, rfl⟩ := List.mem_map.1 hf
      exact format_group_no_colon x (h x hx)

theorem groups_clean (ws : List Nat) (h : ∀ w ∈ ws, w < 65536) :
    ∀ g ∈ ws.map format_group, g ≠ [] ∧ ':' ∉ g := by
  intro g hg
  obtain ⟨x, hx, rfl⟩ := List.mem_map.1 hg
  exact ⟨format_group_ne_nil x, format_group_no_colon x (h x hx)⟩

theorem parse_inet6_format (ws : List Nat) (hlen : ws.length = 8) (h : ∀ w ∈ ws, w < 65536) :
    parse_inet6 (format_inet6_groups ws) = some ws := by
  unfold format_inet6_groups
  split
  · have hne : ws.map format_group ≠ [] := by
      intro hc
      have := congrArg List.length hc
      rw [List.length_map, hlen] at this
      exact absurd this (by decide)
    rw [parse_inet6, split_double_colon_join _ (groups_clean ws h)]
    simp only
    rw [split_on_join ':' _ hne (fun f hf => (groups_clean ws h f hf).2),
      parse_all_map parse_group format_group ws
        (fun w hw => parse_group_format_group w (h w hw))]
    simp only
    rw [if_pos hlen]
  · rename_i hl
    have hpre : ∀ w ∈ ws.take (best_zero_run ws).1, w < 65536 := fun w hw =>
      h w (List.mem_of_mem_take hw)
    have hpost : ∀ w ∈ ws.drop ((best_zero_run ws).1 + (best_zero_run ws).2), w < 65536 :=
      fun w hw => h w (List.mem_of_mem_drop hw)
    have hle := best_zero_run_le ws
    rw [hlen] at hle
    rw [parse_inet6, split_double_colon_join_at _ _ (groups_clean _ hpre)]
    simp only
    rw [parse_groups_join _ hpre, parse_groups_join _ hpost]
    simp only
    have hcount : (ws.take (best_zero_run ws).1).length +
        (ws.drop ((best_zero_run ws).1 + (best_zero_run ws).2)).length =
        8 - (best_zero_run ws).2 := by
      rw [List.length_take, List.length_drop, hlen]
      omega
    rw [hcount, if_pos (by omega)]
    have hk : 8 - (8 - (best_zero_run ws).2) = (best_zero_run ws).2 := by omega
    rw [hk, ← best_zero_run_spec ws]

theorem parse_inet_format (a : Fin 4 → uint8_t) :
    parse_inet (format_inet a) = some ((List.ofFn a).map (fun b => b.val)) := by
  have hfs : ∀ f ∈ (List.ofFn a).map (fun b => format_octet b.val), '.' ∉ f := by
    intro f hf
    obtain ⟨x, _, rfl⟩ := List.mem_map.1 hf
    exact format_octet_no_dot x.val x.isLt
  have hne : (List.ofFn a).map (fun b => format_octet b.val) ≠ [] := by
    intro hc
    have := congrArg List.length hc
    rw [List.length_map, List.length_ofFn] at this
    exact absurd this (by decide)
  have hmap : (List.ofFn a).map (fun b => format_octet b.val) =
      ((List.ofFn a).map (fun b => b.val)).map format_octet := by
    rw [List.map_map]
    rfl
  rw [parse_inet, format_inet, split_on_join '.' _ hne hfs, hmap,
    parse_all_map parse_octet format_octet]
  · simp
  · intro w hw
    obtain ⟨x, _, rfl⟩ := List.mem_map.1 hw
    exact parse_octet_format_octet x.val x.isLt

theorem addr_groups_length (a : Fin 16 → uint8_t) : (addr_groups a).length = 8 := by
  rw [addr_groups, List.length_ofFn]

theorem addr_groups_lt (a : Fin 16 → uint8_t) : ∀ w ∈ addr_groups a, w < 65536 := by
  intro w hw
  rw [addr_groups, List.mem_ofFn] at hw
  obtain ⟨k, rfl⟩ := hw
  have h1 := (a ⟨2 * k.val, by omega⟩).isLt
  have h2 := (a ⟨2 * k.val + 1, by omega⟩).isLt
  show (a ⟨2 * k.val, by omega⟩).val * 256 + (a ⟨2 * k.val + 1, by omega⟩).val < 65536
  omega

theorem store_in_ofFn (old : Fin 16 → uint8_t) (a : Fin 4 → uint8_t) (i : Fin 4) :
    store_in old ((List.ofFn a).map (fun b => b.val)) (Fin.castLE (by decide) i) = a i := by
  have hl : (List.ofFn a).map (fun b => b.val) = [(a 0).val, (a 1).val, (a 2).val, (a 3).val] :=
    rfl
  rw [hl]
  apply Fin.ext
  fin_cases i
  · exact Nat.mod_eq_of_lt (a 0).isLt
  · exact Nat.mod_eq_of_lt (a 1).isLt
  · exact Nat.mod_eq_of_lt (a 2).isLt
  · exact Nat.mod_eq_of_lt (a 3).isLt

theorem store_in6_groups (a : Fin 16 → uint8_t) (i : Fin 16) :
    store_in6 (addr_groups a) i = a i := by
  have hl : addr_groups a =
      [(a 0).val * 256 + (a 1).val, (a 2).val * 256 + (a 3).val,
       (a 4).val * 256 + (a 5).val, (a 6).val * 256 + (a 7).val,
       (a 8).val * 256 + (a 9).val, (a 10).val * 256 + (a 11).val,
       (a 12).val * 256 + (a 13).val, (a 14).val * 256 + (a 15).val] := rfl
  rw [hl]
  have hb : ∀ j : Fin 16, (a j).val < 256 := fun j => (a j).isLt
  have hhi : ∀ x y : Nat, x < 256 → y < 256 → (x * 256 + y) / 256 % 256 = x := by
    intro x y hx hy
    omega
  have hlo : ∀ x y : Nat, x < 256 → y < 256 → (x * 256 + y) % 256 % 256 = y := by
    intro x y hx hy
    omega
  apply Fin.ext
  fin_cases i
  · exact hhi _ _ (hb 0) (hb 1)
  · exact hlo _ _ (hb 0) (hb 1)
  · exact hhi _ _ (hb 2) (hb 3)
  · exact hlo _ _ (hb 2) (hb 3)
  · exact hhi _ _ (hb 4) (hb 5)
  · exact hlo _ _ (hb 4) (hb 5)
  · exact hhi _ _ (hb 6) (hb 7)
  · exact hlo _ _ (hb 6) (hb 7)
  · exact hhi _ _ (hb 8) (hb 9)
  · exact hlo _ _ (hb 8) (hb 9)
  · exact hhi _ _ (hb 10) (hb 11)
  · exact hlo _ _ (hb 10) (hb 11)
  · exact hhi _ _ (hb 12) (hb 13)
  · exact hlo _ _ (hb 12) (hb 13)
  · exact hhi _ _ (hb 14) (hb 15)
  · exact hlo _ _ (hb 14) (hb 15)

/-- The text written for `2001:db8::1` and for `192.168.0.1`, and texts that are not read. -/
theorem text_form_examples :
    sol_network_link_addr_to_str
        ⟨SOL_NETWORK_FAMILY_INET6, ![32, 1, 13, 184, 0, 0, 0, 0, 0, 0, 0, 0, 0, 0, 0, 1], 0⟩ [] =
      some ("2001:db8::1".toList, "2001:db8::1".toList) ∧
    sol_network_link_addr_to_str
        ⟨SOL_NETWORK_FAMILY_INET, ![192, 168, 0, 1, 0, 0, 0, 0, 0, 0, 0, 0, 0, 0, 0, 0], 0⟩ [] =
      some ("192.168.0.1".toList, "192.168.0.1".toList) ∧
    sol_network_link_addr_to_str ⟨SOL_NETWORK_FAMILY_UNSPEC, fun _ => 0, 0⟩ [] = none ∧
    (sol_network_link_addr_from_str ⟨SOL_NETWORK_FAMILY_INET, fun _ => 0, 0⟩
      "1.2.3.256".toList).isSome = false ∧
    (sol_network_link_addr_from_str ⟨SOL_NETWORK_FAMILY_INET6, fun _ => 0, 0⟩
      "1.2.3.4".toList).isSome = false ∧
    (sol_network_link_addr_from_str ⟨SOL_NETWORK_FAMILY_INET, fun _ => 0, 0⟩
      "::1".toList).isSome = false ∧
    (sol_network_link_addr_from_str ⟨SOL_NETWORK_FAMILY_INET6, fun _ => 0, 0⟩
      "FE80::1".toList).isSome = true := by
  refine ⟨?_, ?_, ?_, ?_, ?_, ?_, ?_⟩ <;> decide

/-! ## Claims -/

/-- C1: `sol_network_link_addr_eq a b` is true exactly when the two families are the same,
that family is `SOL_NETWORK_FAMILY_INET` or `SOL_NETWORK_FAMILY_INET6`, and the payloads
agree on every byte valid for it: the 4 bytes of `addr.in` for INET, the 16 bytes of
`addr.in6` for INET6. -/
theorem addr_eq_iff_family_and_payload (a b : sol_network_link_addr) :
    sol_network_link_addr_eq a b = true ↔
      a.family = b.family ∧
      ((a.family = SOL_NETWORK_FAMILY_INET ∧ ∀ i : Fin 4, a.addr_in i = b.addr_in i) ∨
       (a.family = SOL_NETWORK_FAMILY_INET6 ∧ ∀ i : Fin 16, a.addr_in6 i = b.addr_in6 i)) :=
  eq_true_iff a b

/-- C2: addresses of different families compare unequal, whatever their payload bytes
and ports. -/
theorem addr_eq_false_of_family_differs (a b : sol_network_link_addr)
    (hf : a.family ≠ b.family) : sol_network_link_addr_eq a b = false :=
  eq_false_of_family_ne a b hf

/-- An IPv4 and an IPv6 address with the same bytes and port compare unequal. -/
theorem addr_eq_false_of_family_differs_witness :
    (1 : Int) ≠ 2 ∧
    sol_network_link_addr_eq ⟨1, fun _ => 7, 80⟩ ⟨2, fun _ => 7, 80⟩ = false :=
  ⟨by decide, addr_eq_false_of_family_differs ⟨1, fun _ => 7, 80⟩ ⟨2, fun _ => 7, 80⟩
    (by decide)⟩

/-- C3: when either family is `SOL_NETWORK_FAMILY_UNSPEC` the comparison is false, also
when both addresses are unspecified and identical in every field. -/
theorem addr_eq_false_of_unspec (a b : sol_network_link_addr)
    (h : a.family = SOL_NETWORK_FAMILY_UNSPEC ∨ b.family = SOL_NETWORK_FAMILY_UNSPEC) :
    sol_network_link_addr_eq a b = false := by
  by_cases hf : a.family = b.family
  · have ha : a.family = SOL_NETWORK_FAMILY_UNSPEC := by
      rcases h with h | h
      · exact h
      · rw [hf]; exact h
    apply eq_false_of_other_family
    · rw [ha]; decide
    · rw [ha]; decide
  · exact eq_false_of_family_ne a b hf

/-- Two identical unspecified addresses compare unequal. -/
theorem addr_eq_false_of_unspec_witness :
    sol_network_link_addr_eq ⟨SOL_NETWORK_FAMILY_UNSPEC, fun _ => 0, 0⟩
      ⟨SOL_NETWORK_FAMILY_UNSPEC, fun _ => 0, 0⟩ = false :=
  addr_eq_false_of_unspec ⟨SOL_NETWORK_FAMILY_UNSPEC, fun _ => 0, 0⟩
    ⟨SOL_NETWORK_FAMILY_UNSPEC, fun _ => 0, 0⟩ (Or.inl rfl)

/-- C4: the comparison does not read the port: replacing the port of `a` by `p` and the
port of `b` by `q` leaves the result unchanged, and two addresses of one IPv4/IPv6
family with the same valid address bytes compare equal under any two ports. -/
theorem addr_eq_ignores_port (a b : sol_network_link_addr) (p q : uint16_t) :
    sol_network_link_addr_eq (a.set_port p) (b.set_port q) = sol_network_link_addr_eq a b ∧
    (a.family = b.family →
      (a.family = SOL_NETWORK_FAMILY_INET ∧ (∀ i : Fin 4, a.addr_in i = b.addr_in i) ∨
       a.family = SOL_NETWORK_FAMILY_INET6 ∧ (∀ i : Fin 16, a.addr_in6 i = b.addr_in6 i)) →
      p ≠ q →
      sol_network_link_addr_eq (a.set_port p) (b.set_port q) = true) := by
  have h : sol_network_link_addr_eq (a.set_port p) (b.set_port q) =
      sol_network_link_addr_eq a b := rfl
  refine ⟨h, ?_⟩
  intro hf hp _
  rw [h]
  exact (eq_true_iff a b).2 ⟨hf, hp⟩

/-- The same IPv4 bytes under ports 80 and 443 compare equal. -/
theorem addr_eq_ignores_port_witness :
    sol_network_link_addr_eq ⟨1, fun _ => 9, 80⟩ ⟨1, fun _ => 9, 443⟩ = true :=
  (addr_eq_ignores_port ⟨1, fun _ => 9, 0⟩ ⟨1, fun _ => 9, 0⟩ 80 443).2 rfl
    (Or.inl ⟨rfl, fun _ => rfl⟩) (by decide)

/-- C5, as stated, fails: an address whose family is `SOL_NETWORK_FAMILY_UNSPEC` does
not compare equal to itself. -/
theorem addr_eq_not_reflexive_unspec :
    ¬ (∀ a : sol_network_link_addr, sol_network_link_addr_eq a a = true) := by
  intro h
  exact absurd (h ⟨SOL_NETWORK_FAMILY_UNSPEC, fun _ => 0, 0⟩) (by decide)

/-- C5, amended: an address compares equal to itself exactly when its family is
`SOL_NETWORK_FAMILY_INET` or `SOL_NETWORK_FAMILY_INET6`; for every other family value the
comparison of the address with itself is false. -/
theorem addr_eq_self_iff (a : sol_network_link_addr) :
    sol_network_link_addr_eq a a = true ↔
      (a.family = SOL_NETWORK_FAMILY_INET ∨ a.family = SOL_NETWORK_FAMILY_INET6) := by
  rw [eq_true_iff]
  constructor
  · rintro ⟨_, ⟨h, _⟩ | ⟨h, _⟩⟩
    · exact Or.inl h
    · exact Or.inr h
  · rintro (h | h)
    · exact ⟨rfl, Or.inl ⟨h, fun _ => rfl⟩⟩
    · exact ⟨rfl, Or.inr ⟨h, fun _ => rfl⟩⟩

/-- C6: the five link flags have the values 1, 2, 4, 8 and 16, each a single bit, and are
pairwise distinct; for every set `S` of flags the OR of its members has a non-zero AND
with a flag exactly when that flag is in `S`, and different sets give different masks. -/
theorem link_flags_or_lossless :
    sol_network_link_flags.SOL_NETWORK_LINK_UP.value = 1 ∧
    sol_network_link_flags.SOL_NETWORK_LINK_BROADCAST.value = 2 ∧
    sol_network_link_flags.SOL_NETWORK_LINK_LOOPBACK.value = 4 ∧
    sol_network_link_flags.SOL_NETWORK_LINK_MULTICAST.value = 8 ∧
    sol_network_link_flags.SOL_NETWORK_LINK_RUNNING.value = 16 ∧
    (∀ f : sol_network_link_flags, ∃ k : Nat, f.value = 2 ^ k) ∧
    (∀ f g : sol_network_link_flags, f ≠ g → f.value ≠ g.value) ∧
    (∀ (S : Finset sol_network_link_flags) (f : sol_network_link_flags),
      flags_or S &&& f.value ≠ 0 ↔ f ∈ S) ∧
    (∀ S T : Finset sol_network_link_flags, S ≠ T → flags_or S ≠ flags_or T) := by
  refine ⟨rfl, rfl, rfl, rfl, rfl, ?_, ?_, flags_or_and_iff, ?_⟩
  · intro f
    cases f
    · exact ⟨0, rfl⟩
    · exact ⟨1, rfl⟩
    · exact ⟨2, rfl⟩
    · exact ⟨3, rfl⟩
    · exact ⟨4, rfl⟩
  · intro f g
    cases f <;> cases g <;> decide
  · intro S T hST hm
    apply hST
    ext f
    rw [← flags_or_and_iff S f, ← flags_or_and_iff T f, hm]

/-- C7: for every address `a` of family IPv4 or IPv6, `sol_network_link_addr_to_str`
gives a text (appended to the buffer), and `sol_network_link_addr_from_str` on that
text, with an output address whose family is preset to `a.family`, gives an address
`b` with `sol_network_link_addr_eq a b = true`. -/
theorem addr_text_round_trip (a out : sol_network_link_addr) (buf : List Char)
    (hfam : a.family = SOL_NETWORK_FAMILY_INET ∨ a.family = SOL_NETWORK_FAMILY_INET6)
    (hout : out.family = a.family) :
    ∃ (text : List Char) (b : sol_network_link_addr),
      sol_network_link_addr_to_str a buf = some (text, buf ++ text) ∧
      sol_network_link_addr_from_str out text = some b ∧
      sol_network_link_addr_eq a b = true := by
  rcases hfam with h4 | h6
  · refine ⟨format_inet a.addr_in,
      ⟨out.family, store_in out.addr ((List.ofFn a.addr_in).map (fun b => b.val)), out.port⟩,
      ?_, ?_, ?_⟩
    · rw [sol_network_link_addr_to_str, if_pos h4]
    · rw [sol_network_link_addr_from_str, if_pos (hout.trans h4), parse_inet_format]
    · have hf : a.family = (⟨out.family,
          store_in out.addr ((List.ofFn a.addr_in).map (fun b => b.val)),
          out.port⟩ : sol_network_link_addr).family := hout.symm
      rw [eq_inet_iff a _ hf h4]
      intro i
      show a.addr_in i =
        store_in out.addr ((List.ofFn a.addr_in).map (fun b => b.val)) (Fin.castLE (by decide) i)
      rw [store_in_ofFn]
  · have n4 : a.family ≠ SOL_NETWORK_FAMILY_INET := by
      rw [h6]
      decide
    refine ⟨format_inet6 a.addr_in6, ⟨out.family, store_in6 (addr_groups a.addr_in6), out.port⟩,
      ?_, ?_, ?_⟩
    · rw [sol_network_link_addr_to_str, if_neg n4, if_pos h6]
    · rw [sol_network_link_addr_from_str, if_neg (hout ▸ n4), if_pos (hout.trans h6),
        format_inet6, parse_inet6_format _ (addr_groups_length _) (addr_groups_lt _)]
    · have hf : a.family = (⟨out.family, store_in6 (addr_groups a.addr_in6),
          out.port⟩ : sol_network_link_addr).family := hout.symm
      rw [eq_inet6_iff a _ hf h6]
      intro i
      show a.addr_in6 i = store_in6 (addr_groups a.addr_in6) i
      rw [store_in6_groups]

/-- The round trip of `fe80::211:22ff:fe33:4455`, port 5683. -/
theorem addr_text_round_trip_witness :
    ∃ (text : List Char) (b : sol_network_link_addr),
      sol_network_link_addr_to_str
        ⟨SOL_NETWORK_FAMILY_INET6, ![254, 128, 0, 0, 0, 0, 0, 0, 2, 17, 34, 255, 254, 51, 68, 85],
          5683⟩ [] = some (text, [] ++ text) ∧
      sol_network_link_addr_from_str ⟨SOL_NETWORK_FAMILY_INET6, fun _ => 0, 0⟩ text = some b ∧
      sol_network_link_addr_eq
        ⟨SOL_NETWORK_FAMILY_INET6, ![254, 128, 0, 0, 0, 0, 0, 0, 2, 17, 34, 255, 254, 51, 68, 85],
          5683⟩ b = true :=
  addr_text_round_trip
    ⟨SOL_NETWORK_FAMILY_INET6, ![254, 128, 0, 0, 0, 0, 0, 0, 2, 17, 34, 255, 254, 51, 68, 85], 5683⟩
    ⟨SOL_NETWORK_FAMILY_INET6, fun _ => 0, 0⟩ [] (Or.inr rfl) rfl

/-- C8: for two IPv4 addresses the comparison reads only bytes 0..3 of the union
storage: replacing the storage of either address by one that agrees with it on the
first four bytes (bytes 4..15 arbitrary) does not change the result. -/
theorem addr_eq_inet_ignores_tail (a b : sol_network_link_addr) (sa sb : Fin 16 → uint8_t)
    (ha : a.family = SOL_NETWORK_FAMILY_INET) (hb : b.family = SOL_NETWORK_FAMILY_INET)
    (hsa : ∀ i : Fin 16, i.val < 4 → sa i = a.addr i)
    (hsb : ∀ i : Fin 16, i.val < 4 → sb i = b.addr i) :
    sol_network_link_addr_eq (a.set_addr sa) (b.set_addr sb) =
      sol_network_link_addr_eq a b := by
  have hf : a.family = b.family := by rw [ha, hb]
  rw [Bool.eq_iff_iff, eq_inet_iff a b hf ha, eq_inet_iff (a.set_addr sa) (b.set_addr sb) hf ha]
  have ea : ∀ i : Fin sizeof_in, (a.set_addr sa).addr_in i = a.addr_in i := fun i =>
    hsa _ i.isLt
  have eb : ∀ i : Fin sizeof_in, (b.set_addr sb).addr_in i = b.addr_in i := fun i =>
    hsb _ i.isLt
  constructor
  · intro h i
    rw [← ea, ← eb]
    exact h i
  · intro h i
    rw [ea, eb]
    exact h i

/-- Two IPv4 addresses whose storage differs only in bytes 4..15. -/
theorem addr_eq_inet_ignores_tail_witness :
    sol_network_link_addr_eq
      ((⟨1, fun _ => 5, 0⟩ : sol_network_link_addr).set_addr
        (fun i => if i.val < 4 then 5 else 255))
      ((⟨1, fun _ => 5, 0⟩ : sol_network_link_addr).set_addr
        (fun i => if i.val < 4 then 5 else 17)) =
      sol_network_link_addr_eq ⟨1, fun _ => 5, 0⟩ ⟨1, fun _ => 5, 0⟩ :=
  addr_eq_inet_ignores_tail ⟨1, fun _ => 5, 0⟩ ⟨1, fun _ => 5, 0⟩
    (fun i => if i.val < 4 then 5 else 255) (fun i => if i.val < 4 then 5 else 17)
    rfl rfl (fun i hi => by simp [hi]) (fun i hi => by simp [hi])

/-- C9: the comparison is symmetric for all addresses, whatever their family values. -/
theorem addr_eq_symm (a b : sol_network_link_addr) :
    sol_network_link_addr_eq a b = sol_network_link_addr_eq b a := by
  rw [Bool.eq_iff_iff, eq_true_iff, eq_true_iff]
  constructor
  · rintro ⟨hf, ⟨h4, h⟩ | ⟨h6, h⟩⟩
    · exact ⟨hf.symm, Or.inl ⟨hf ▸ h4, fun i => (h i).symm⟩⟩
    · exact ⟨hf.symm, Or.inr ⟨hf ▸ h6, fun i => (h i).symm⟩⟩
  · rintro ⟨hf, ⟨h4, h⟩ | ⟨h6, h⟩⟩
    · exact ⟨hf.symm, Or.inl ⟨hf ▸ h4, fun i => (h i).symm⟩⟩
    · exact ⟨hf.symm, Or.inr ⟨hf ▸ h6, fun i => (h i).symm⟩⟩

/-- C10: the comparison is transitive, and on the addresses whose family is IPv4 or
IPv6 it is an equivalence relation. -/
theorem addr_eq_trans_and_equivalence :
    (∀ a b c : sol_network_link_addr,
      sol_network_link_addr_eq a b = true → sol_network_link_addr_eq b c = true →
      sol_network_link_addr_eq a c = true) ∧
    Equivalence (fun x y : {a : sol_network_link_addr //
        a.family = SOL_NETWORK_FAMILY_INET ∨ a.family = SOL_NETWORK_FAMILY_INET6} =>
      sol_network_link_addr_eq x.val y.val = true) := by
  have tr : ∀ a b c : sol_network_link_addr,
      sol_network_link_addr_eq a b = true → sol_network_link_addr_eq b c = true →
      sol_network_link_addr_eq a c = true := by
    intro a b c hab hbc
    rw [eq_true_iff] at hab hbc ⊢
    obtain ⟨hf1, h1⟩ := hab
    obtain ⟨hf2, h2⟩ := hbc
    refine ⟨hf1.trans hf2, ?_⟩
    rcases h1 with ⟨h4, h1⟩ | ⟨h6, h1⟩
    · rcases h2 with ⟨_, h2⟩ | ⟨h6', _⟩
      · exact Or.inl ⟨h4, fun i => (h1 i).trans (h2 i)⟩
      · rw [← hf1, h4] at h6'
        exact absurd h6' (by decide)
    · rcases h2 with ⟨h4', _⟩ | ⟨_, h2⟩
      · rw [← hf1, h6] at h4'
        exact absurd h4' (by decide)
      · exact Or.inr ⟨h6, fun i => (h1 i).trans (h2 i)⟩
  refine ⟨tr, ⟨?_, ?_, ?_⟩⟩
  · intro x
    rw [eq_true_iff]
    rcases x.property with h | h
    · exact ⟨rfl, Or.inl ⟨h, fun _ => rfl⟩⟩
    · exact ⟨rfl, Or.inr ⟨h, fun _ => rfl⟩⟩
  · intro x y h
    rw [eq_true_iff] at h ⊢
    obtain ⟨hf, h⟩ := h
    rcases h with ⟨h4, h⟩ | ⟨h6, h⟩
    · exact ⟨hf.symm, Or.inl ⟨hf ▸ h4, fun i => (h i).symm⟩⟩
    · exact ⟨hf.symm, Or.inr ⟨hf ▸ h6, fun i => (h i).symm⟩⟩
  · intro x y z hxy hyz
    exact tr x.val y.val z.val hxy hyz

/-- Three IPv6 addresses with the same bytes and ports 10, 20 and 30. -/
theorem addr_eq_trans_witness :
    sol_network_link_addr_eq ⟨2, fun _ => 1, 10⟩ ⟨2, fun _ => 1, 30⟩ = true :=
  addr_eq_trans_and_equivalence.1 ⟨2, fun _ => 1, 10⟩ ⟨2, fun _ => 1, 20⟩
    ⟨2, fun _ => 1, 30⟩ (by decide) (by decide)

end Soletta
